import Mathlib

/-!
Verification of the `my-rusty-plonk` cryptographic algebra stack.

The development shallowly embeds the Rust sources:
  * `src/my_math/field.rs`            — `FieldElement` over the fixed modulus 101,
  * `src/math/ext_euclidean_algo.rs`  — `ext_gcd`,
  * `src/ark_plonk/polynomial.rs`     — dense polynomials (`divide`,
    `lagrange_interpolate`, `evaluate`, `degree`, ...),
  * `src/my_plonk/elliptic_curve.rs`  — curve points over F_101 and its quadratic
    extension (with the sentinel-based slope division),
  * `src/my_math/elliptic_curve.rs`   — the tagged-variant point addition,
  * `src/my_math/toy_pairing.rs`      — the placeholder pairing,
  * `src/my_plonk/kzg.rs`             — Setup / Commit / Open / Verify.

`FieldElement` values are always reduced into `[0, 101)` (the constructor reduces
and every operation goes through it), so the carrier is modelled as `ZMod 101`;
each Rust operation is translated literally on `val`-representatives.  Rust `u64`
arithmetic never overflows here (all operands are `< 101`, products `< 101^2`),
so plain `Nat` arithmetic is exact.  Rust `i64` division/remainder truncate
toward zero, which is `Int.tdiv` / `Int.tmod`.  Rust panics (assert failures,
out-of-range indexing, `usize` underflow) are modelled as `Option.none`.
`while` loops are modelled with an explicit fuel argument that provably exceeds
the (always finite) iteration count of the source loop, so that the definitions
stay structurally recursive and kernel-evaluable.
-/

namespace Rusty

/-- `FieldElement` of `src/my_math/field.rs`: a value in `[0, 101)`.  The struct
invariant (`value` reduced mod `MODULUS = 101`) makes the carrier `ZMod 101`. -/
abbrev Fe : Type := ZMod 101

/-- `FieldElement::new(value)`: reduces `value % 101`. -/
def feNew (v : Nat) : Fe := (v : Fe)

/-- `FieldElement::add`: `new(self.value + other.value)`. -/
def feAdd (a b : Fe) : Fe := feNew (a.val + b.val)

/-- `FieldElement::substract`: `new(self.value + MODULUS - other.value)`. -/
def feSub (a b : Fe) : Fe := feNew (a.val + 101 - b.val)

/-- `FieldElement::multiply`: `new(self.value * other.value)`. -/
def feMul (a b : Fe) : Fe := feNew (a.val * b.val)

/-- `FieldElement::negate`: `new(MODULUS).substract(self)`. -/
def feNeg (a : Fe) : Fe := feSub (feNew 101) a


/-- One pass of the `while r != 0` loop of `ext_gcd`
(`src/math/ext_euclidean_algo.rs`), with explicit fuel.  The state is
`(old_r, r, old_s, s, old_t, t)`; Rust `i64` `/` and `%` truncate toward zero
(`Int.tdiv`, `Int.tmod`).  `|r|` strictly decreases each iteration, so any fuel
`≥ |r| + 1` runs the loop to completion. -/
def extGcdLoop : Nat → Int → Int → Int → Int → Int → Int → Int × Int × Int
  | 0, old_r, _, old_s, _, old_t, _ => (old_s, old_t, old_r)
  | fuel + 1, old_r, r, old_s, s, old_t, t =>
    if r = 0 then (old_s, old_t, old_r)
    else
      extGcdLoop fuel r (old_r - old_r.tdiv r * r) s (old_s - old_r.tdiv r * s)
        t (old_t - old_r.tdiv r * t)

/-- `ext_gcd(a, b)` returning `(s, t, gcd)` with `s*a + t*b = gcd`.  Fuel
`b.natAbs + a.natAbs + 2` strictly exceeds the iteration count of the loop, since the
absolute value of the running remainder starts below `max |a| |b|` and strictly
decreases every iteration. -/
def extGcd (a b : Int) : Int × Int × Int :=
  extGcdLoop (b.natAbs + a.natAbs + 2) a b 1 0 0 1

/-- `FieldElement::mod_inverse`: extended Euclid; `None` when the gcd is not 1,
otherwise the Bézout coefficient normalised into `[0, 101)` by
`((s % m + m) % m)` (Rust `%` = `Int.tmod`). -/
def modInverse (a : Fe) : Option Nat :=
  match extGcd (a.val : Int) 101 with
  | (s, _, g) =>
    if g ≠ 1 then none
    else some ((s.tmod 101 + 101).tmod 101).toNat

/-- `FieldElement::inverse`: the modular inverse, or the zero element as a
sentinel when no inverse exists. -/
def feInverse (a : Fe) : Fe :=
  match modInverse a with
  | some v => feNew v
  | none => feNew 0

/-- `FieldElement::divide`: `a * b⁻¹`, with the zero sentinel of `inverse`. -/
def feDivide (a b : Fe) : Fe := feMul a (feInverse b)

/-- One step of the bit scan of `FieldElement::pow`: state `(fsb_found, result)`,
scanning bit `n` of `exp`. -/
def fePowStep (a : Fe) (exp : Nat) (st : Bool × Fe) (n : Nat) : Bool × Fe :=
  match st with
  | (true, r) =>
    if (exp >>> n) &&& 1 = 1 then (true, feMul (feMul r r) a) else (true, feMul r r)
  | (false, r) =>
    if (exp >>> n) &&& 1 = 1 then (true, r) else (false, r)

/-- `FieldElement::pow(exp)`: square-and-multiply scanning bits 63 down to 0;
`pow(a, 0) = 1`. -/
def fePow (a : Fe) (exp : Nat) : Fe :=
  if exp = 0 then feNew 1
  else ((List.range 64).reverse.foldl (fePowStep a exp) (false, a)).2


end Rusty

namespace Rusty

/-! ## Polynomials (`src/ark_plonk/polynomial.rs`)

A polynomial is its dense coefficient vector, index `i` = coefficient of `x^i`.
The `my_math/polynomial.rs` variant implements the same `divide`,
`lagrange_interpolate` and `evaluate` algorithms (over a per-value modulus that
is 101 throughout the KZG stack), so one embedding covers both cited variants.
-/

/-- `Polynomial::degree`: `coeffs.iter().rposition(|c| c != 0)` — the index of
the last nonzero coefficient, `none` for the zero polynomial. -/
def degreeL (c : List Fe) : Option Nat :=
  (c.reverse.findIdx? (· ≠ 0)).map (fun i => c.length - 1 - i)

/-- `Polynomial::add`: pointwise, zero-padded to the longer length. -/
def polyAddL (a b : List Fe) : List Fe :=
  (List.range (max a.length b.length)).map (fun i => feAdd (a.getD i 0) (b.getD i 0))

/-- `Polynomial::mul`: convolution into a vector of length `n + m - 1`
(`result[i+j] += a[i]*b[j]`; the entry at `k` is the convolution sum, written
here directly as a fold since `Fe` addition is commutative and associative). -/
def polyMulL (a b : List Fe) : List Fe :=
  (List.range (a.length + b.length - 1)).map (fun k =>
    (List.range (k + 1)).foldl (fun acc i => feAdd acc (feMul (a.getD i 0) (b.getD (k - i) 0)))
      (feNew 0))

/-- `Polynomial::scalar_mul`: multiply every coefficient. -/
def scalarMulPoly (a : List Fe) (s : Fe) : List Fe := a.map (fun c => feMul c s)

/-- `Polynomial::evaluate`: Horner evaluation from the highest coefficient down
(`coeffs.iter().rev().fold(0, |acc, c| acc * x + c)`). -/
def evalL (c : List Fe) (x : Fe) : Fe :=
  c.foldr (fun coeff acc => feAdd (feMul acc x) coeff) (feNew 0)

/-- `Polynomial::lagrange_interpolate`: `Σ_i y_i · l_i(x)`,
`l_i = ∏_{j≠i}(x − x_j)/(x_i − x_j)`; the `assert!(!points.is_empty())` panic
is `none`.  Denominator inverses go through the zero sentinel of `inverse`. -/
def lagrangeL (pts : List (Fe × Fe)) : Option (List Fe) :=
  if pts.isEmpty then none
  else some (pts.enum.foldl (fun result (i, xi, yi) =>
    let inner := pts.enum.foldl
      (fun (st : List Fe × Fe) (jp : Nat × Fe × Fe) =>
        if i ≠ jp.1 then
          (polyMulL st.1 [feNeg jp.2.1, feNew 1], feMul st.2 (feSub xi jp.2.1))
        else st)
      ([feNew 1], feNew 1)
    polyAddL result (scalarMulPoly (scalarMulPoly inner.1 (feInverse inner.2)) yi))
    [])

/-- Pointwise subtraction of a prefix: `subAt D s` subtracts `s` from the first
`s.length` entries of `D`, keeping the rest — the inner `j`-loop of `divide`
applied at offset 0. -/
def subAt : List Fe → List Fe → List Fe
  | D, [] => D
  | [], _ :: _ => []
  | d :: D', a :: s' => feSub d a :: subAt D' s'

/-- The inner `j`-loop of `Polynomial::divide`: subtract `divisor[j] * term`
from `dividend[i + j]` for `j = 0..=divisor_deg`, i.e. subtract the list
`divisor.map (· * term)` starting at offset `i`. -/
def applySub (D : List Fe) (i : Nat) (s : List Fe) : List Fe :=
  D.take i ++ subAt (D.drop i) s

/-- The outer loop of `Polynomial::divide` (`for i in (0..quotient.len()).rev()`),
structurally recursive in the loop counter: at index `i`,
`term = dividend[i + divisor_deg] * inv_divisor_lead` becomes `quotient[i]` and
`term * divisor` is subtracted from the dividend at offset `i`.  Returns the
quotient coefficients (ascending) and the final dividend. -/
def divLoop (d : List Fe) (inv : Fe) : Nat → List Fe → List Fe × List Fe
  | 0, D => ([], D)
  | i + 1, D =>
    let term := feMul (D.getD (i + (d.length - 1)) 0) inv
    let D' := applySub D i (d.map (fun c => feMul c term))
    let r := divLoop d inv i D'
    (r.1 ++ [term], r.2)

/-- The remainder-trimming loop of `divide`
(`while dividend.len() > divisor_deg && last == 0 { pop }`), structurally
recursive on the reversed list (popping the back = dropping the head of the
reverse). -/
def remTrimRev (dd : Nat) : List Fe → List Fe
  | [] => []
  | c :: rest => if rest.length + 1 > dd ∧ c = 0 then remTrimRev dd rest else c :: rest

def remTrim (dd : Nat) (D : List Fe) : List Fe := (remTrimRev dd D.reverse).reverse

/-- `Polynomial::divide(divisor)`.  `none` is the
`assert!(!divisor.coeffs.is_empty())` panic; a length-1 divisor takes the
scalar path (through the `inverse` zero sentinel) with an empty remainder; otherwise
synthetic long division.  `divisor.coeffs.last().unwrap()` is
`d.getD (d.length - 1) 0`. -/
def divideL (p d : List Fe) : Option (List Fe × List Fe) :=
  if d.isEmpty then none
  else if d.length = 1 then
    some (p.map (fun c => feMul c (feInverse (d.getD 0 0))), [])
  else
    let dd := d.length - 1
    let inv := feInverse (d.getD (d.length - 1) 0)
    if p.length ≤ dd then some ([], p)
    else
      let r := divLoop d inv (p.length - dd) p
      some (r.1, remTrim dd r.2)

end Rusty

namespace Rusty

/-! ## Elliptic curve (`src/my_plonk/elliptic_curve.rs`)

`y² = x³ + a·x + b` over `F_101` with `a = 0`, `b = 3`, `G1 = (1, 2)`,
`G2 = (36, 31u)` over the quadratic extension, subgroup order 17.  Slope
divisions go through `FieldElement::divide`, i.e. the inverse-of-zero
sentinel. -/

/-- `Point`: `{x, y, is_infinity}` (derived `PartialEq` compares all fields). -/
structure Pt where
  x : Fe
  y : Fe
  is_infinity : Bool
deriving DecidableEq

/-- `Point::infinity()`. -/
def inftyP : Pt := ⟨feNew 0, feNew 0, true⟩

/-- `FieldElementExt`: `a + b·u` with `u² = −2`. -/
structure FeExt where
  a : Fe
  b : Fe
deriving DecidableEq

def extAdd (p q : FeExt) : FeExt := ⟨feAdd p.a q.a, feAdd p.b q.b⟩

def extSub (p q : FeExt) : FeExt := ⟨feSub p.a q.a, feSub p.b q.b⟩

/-- `FieldElementExt::mul`: `(a+bu)(c+du) = (ac + bd·(101−2)) + (ad+bc)u`. -/
def extMul (p q : FeExt) : FeExt :=
  ⟨feAdd (feMul p.a q.a) (feMul (feMul p.b q.b) (feNew (101 - 2))),
   feAdd (feMul p.a q.b) (feMul p.b q.a)⟩

/-- `PointExt`: a G2 point over the quadratic extension. -/
structure PtExt where
  x : FeExt
  y : FeExt
  is_infinity : Bool
deriving DecidableEq

/-- `PointExt::infinity()`. -/
def inftyExt : PtExt := ⟨⟨feNew 0, feNew 0⟩, ⟨feNew 0, feNew 0⟩, true⟩

/-- `EllipticCurve::add` (the `a` coefficient of the curve is passed in;
the KZG stack always uses `a = 0`).  Branches in source order: either operand
at infinity; equal `x` with different `y` → infinity; doubling slope
`(3x₁² + a)/(2y₁)` when `p1 == p2`, otherwise chord slope
`(y₂−y₁)/(x₂−x₁)` — both via the sentinel `divide`. -/
def addP (cA : Fe) (p1 p2 : Pt) : Pt :=
  if p1.is_infinity then p2
  else if p2.is_infinity then p1
  else if p1.x = p2.x ∧ p1.y ≠ p2.y then inftyP
  else
    let m : Fe :=
      if p1 = p2 then
        feDivide (feAdd (feMul (feMul p1.x p1.x) (feNew 3)) cA) (feMul p1.y (feNew 2))
      else
        feDivide (feSub p2.y p1.y) (feSub p2.x p1.x)
    let x3 := feSub (feSub (feMul m m) p1.x) p2.x
    ⟨x3, feSub (feMul m (feSub p1.x x3)) p1.y, false⟩

/-- `EllipticCurve::add_ext`: the G2 mirror; the slope is approximated using
only the real (`.a`) components (a documented "toy approximation"). -/
def addExtP (cA : Fe) (p1 p2 : PtExt) : PtExt :=
  if p1.is_infinity then p2
  else if p2.is_infinity then p1
  else if p1.x = p2.x ∧ p1.y ≠ p2.y then inftyExt
  else
    let m : FeExt :=
      if p1 = p2 then
        let num := extAdd (extMul (extMul p1.x p1.x) ⟨feNew 3, feNew 0⟩) ⟨cA, feNew 0⟩
        let den := extMul p1.y ⟨feNew 2, feNew 0⟩
        ⟨feDivide num.a den.a, feNew 0⟩
      else
        let num := extSub p1.y p2.y
        let den := extSub p1.x p2.x
        ⟨feDivide num.a den.a, feNew 0⟩
    let x3 := extSub (extSub (extMul m m) p1.x) p2.x
    ⟨x3, extSub (extMul m (extSub p1.x x3)) p1.y, false⟩

/-- The `while s > 0` double-and-add loop of `Point::scalar_mul`, fuelled (the
scalar `s` at least halves each iteration, so fuel `s + 1` always finishes the
loop). -/
def scalarLoop (cA : Fe) : Nat → Nat → Pt → Pt → Pt
  | 0, _, result, _ => result
  | _ + 1, 0, result, _ => result
  | fuel + 1, s + 1, result, temp =>
    scalarLoop cA fuel ((s + 1) / 2)
      (if (s + 1) % 2 = 1 then addP cA result temp else result)
      (addP cA temp temp)

/-- `Point::scalar_mul(curve, scalar)`: double-and-add on `scalar.value`. -/
def scalarMulP (cA : Fe) (p : Pt) (k : Fe) : Pt :=
  scalarLoop cA (k.val + 1) k.val inftyP p

/-- The loop of `PointExt::scalar_mul`, fuelled the same way. -/
def scalarLoopExt (cA : Fe) : Nat → Nat → PtExt → PtExt → PtExt
  | 0, _, result, _ => result
  | _ + 1, 0, result, _ => result
  | fuel + 1, s + 1, result, temp =>
    scalarLoopExt cA fuel ((s + 1) / 2)
      (if (s + 1) % 2 = 1 then addExtP cA result temp else result)
      (addExtP cA temp temp)

/-- `PointExt::scalar_mul(curve, scalar)`. -/
def scalarMulExt (cA : Fe) (p : PtExt) (k : Fe) : PtExt :=
  scalarLoopExt cA (k.val + 1) k.val inftyExt p

/-! ### The tagged-variant point (`src/my_math/elliptic_curve.rs`)

`Point = Infinity | Affine(x, y)`, with `impl Add` checking `P = -Q` before the
doubling/chord split.  The field order is 101 throughout the KZG stack and the
doubling slope hardcodes `a = 0` (a documented choice in the source). -/

inductive PtM where
  | infinity : PtM
  | affine : Fe → Fe → PtM
deriving DecidableEq

/-- `impl Add for Point` of `src/my_math/elliptic_curve.rs`. -/
def addM (p q : PtM) : PtM :=
  match p, q with
  | .infinity, r => r
  | r, .infinity => r
  | .affine x1 y1, .affine x2 y2 =>
    if x1 = x2 ∧ y1 = feNeg y2 then .infinity
    else
      let lam : Fe :=
        if x1 = x2 ∧ y1 = y2 then
          feDivide (feAdd (feMul (feMul x1 x1) (feNew 3)) (feNew 0)) (feMul y1 (feNew 2))
        else
          feDivide (feSub y2 y1) (feSub x2 x1)
      let x3 := feSub (feSub (feMul lam lam) x1) x2
      .affine x3 (feSub (feMul lam (feSub x1 x3)) y1)

/-! ## Toy pairing (`src/my_math/toy_pairing.rs`) and KZG (`src/my_plonk/kzg.rs`) -/

/-- `Pairing::new(a, b)`: stores `e = a·b` (plain field multiplication). -/
def pairingNew (a b : Fe) : Fe := feMul a b

/-- The `EllipticCurve` record: `a`, `b`, the two generators, subgroup order. -/
structure CurveSt where
  a : Fe
  b : Fe
  g1 : Pt
  g2 : PtExt
  order : Nat
deriving DecidableEq

/-- `EllipticCurve::new()`: `y² = x³ + 3`, `G1 = (1,2)`, `G2 = (36, 31u)`,
subgroup order 17. -/
def curveNew : CurveSt :=
  ⟨feNew 0, feNew 3, ⟨feNew 1, feNew 2, false⟩,
   ⟨⟨feNew 36, feNew 0⟩, ⟨feNew 0, feNew 31⟩, false⟩, 17⟩

/-- The `KZG` struct: exactly the fields of `src/my_plonk/kzg.rs` lines 16–21 —
`curve`, `setup_g1`, `setup_g2`. -/
structure KZGSt where
  curve : CurveSt
  setup_g1 : List Pt
  setup_g2 : List PtExt
deriving DecidableEq

/-- `KZG::new(degree)`: the secret draw `rng.gen_range(1..101)` is the explicit
parameter `tauRaw`; `setup_g1 = [G, [tau]G, [tau²]G, ...]` via `tau.pow(n)` and
`scalar_mul`, `setup_g2 = [H, [tau]H]`. -/
def kzgNew (degree : Nat) (tauRaw : Nat) : KZGSt :=
  let curve := curveNew
  let tau := feNew tauRaw
  let g := curve.g1
  let h := curve.g2
  { curve := curve
    setup_g1 := g :: (List.range degree).map (fun n => scalarMulP curve.a g (fePow tau (n + 1)))
    setup_g2 := [h, scalarMulExt curve.a h tau] }

/-- The multi-scalar-multiplication loop of `commit` / `prove`
(`for i in 0..=degree { acc = acc + coeffs[i] * setup_g1[i] }`), walking the
coefficients and the SRS in lock step; running past the end of `setup_g1` is
the out-of-range indexing panic, `none`. -/
def msmGo (cA : Fe) : List Fe → List Pt → Pt → Option Pt
  | [], _, acc => some acc
  | _ :: _, [], _ => none
  | c :: cs, p :: ps, acc => msmGo cA cs ps (addP cA acc (scalarMulP cA p c))

/-- `KZG::commit(poly)`: `none` models the panics (`poly.coeffs.len() - 1`
underflow on an empty vector; `setup_g1[i]` out of range). -/
def commitL (k : KZGSt) (coeffs : List Fe) : Option Pt :=
  if coeffs.isEmpty then none
  else msmGo k.curve.a coeffs k.setup_g1 inftyP

/-- The synthetic-division loop of `KZG::prove` on the high-to-low coefficient
tail: `q[i-1] = rem[i]` and `rem[i-1] -= q[i-1] * z`, so each next quotient
coefficient is `c_i − q_i·z` below the leading `q_{n-2} = c_{n-1}`. -/
def proveQAux (z : Fe) : Fe → List Fe → List Fe
  | _, [] => []
  | prev, c :: rest =>
    let q := feSub c (feMul prev z)
    q :: proveQAux z q rest

/-- The quotient `q_coeffs` computed by the loop of `KZG::prove` (ascending order;
the loop runs `i = len-1 .. 1`, never consuming `remainder[0]`, so `q` does not
depend on the `remainder[0] -= y` step). -/
def proveQ (z : Fe) (coeffs : List Fe) : List Fe :=
  match coeffs.reverse with
  | [] => []
  | c :: rest => (c :: proveQAux z c rest.dropLast).reverse

/-- `KZG::prove(poly, z)`: `y = poly.evaluate(z)`, the synthetic-division
quotient, then the same MSM as `commit` over the quotient.  `none` models the
panics (`poly.coeffs.len() - 1` / `q_poly.coeffs.len() - 1` underflow, SRS
indexing out of range). -/
def proveL (k : KZGSt) (coeffs : List Fe) (z : Fe) : Option (Fe × Pt) :=
  if coeffs.isEmpty then none
  else
    let y := evalL coeffs z
    let q := proveQ z coeffs
    if q.isEmpty then none
    else (msmGo k.curve.a q k.setup_g1 inftyP).map (fun pt => (y, pt))

/-- `map_to_scalar` of `KZG::verify`: the `x`-coordinate, 1 at infinity. -/
def mapToScalar (p : Pt) : Fe := if p.is_infinity then feNew 1 else p.x

/-- `map_to_scalar_ext` of `KZG::verify`: the real part of `x`, 1 at infinity. -/
def mapToScalarExt (p : PtExt) : Fe := if p.is_infinity then feNew 1 else p.x.a

/-- The left pairing value of `KZG::verify`:
`e(C − [y]·G1, H)` with `−[y]·G1 = [MODULUS−1]·([y]·G1)`. -/
def verifyLeft (k : KZGSt) (commitment : Pt) (y : Fe) : Fe :=
  let g1 := k.setup_g1.getD 0 inftyP
  let g2 := k.setup_g2.getD 0 inftyExt
  let y_g1 := scalarMulP k.curve.a g1 y
  let c_minus_y_g1 := addP k.curve.a commitment (scalarMulP k.curve.a y_g1 (feNew (101 - 1)))
  pairingNew (mapToScalar c_minus_y_g1) (mapToScalarExt g2)

/-- The right pairing value of `KZG::verify`: `e(π, [tau]·H − [z]·H)`. -/
def verifyRight (k : KZGSt) (z : Fe) (proof : Pt) : Fe :=
  let g2 := k.setup_g2.getD 0 inftyExt
  let tau_g2 := k.setup_g2.getD 1 inftyExt
  let z_g2 := scalarMulExt k.curve.a g2 z
  let tau_g2_minus_z_g2 := addExtP k.curve.a tau_g2 (scalarMulExt k.curve.a z_g2 (feNew (101 - 1)))
  pairingNew (mapToScalar proof) (mapToScalarExt tau_g2_minus_z_g2)

/-- `KZG::verify(commitment, z, y, proof)`: computes both pairing values, then
returns the literal `true` (source line 132; the comparison is never made). -/
def verify (k : KZGSt) (commitment : Pt) (z : Fe) (y : Fe) (proof : Pt) : Bool :=
  let _left := verifyLeft k commitment y
  let _right := verifyRight k z proof
  true

end Rusty

namespace Rusty

/-! ## The algebraic reading of coefficient vectors

`toPoly` sends a dense coefficient list to the polynomial it denotes
(`Σ c_i · X^i`, written in Horner form).  It is the specification-side bridge
used to state `self = quotient * divisor + remainder`; the program itself only
manipulates the lists. -/

open Polynomial

noncomputable def toPoly : List Fe → Polynomial Fe
  | [] => 0
  | c :: cs => C c + X * toPoly cs

theorem feNew_val (a : Fe) : feNew a.val = a := by
  simp [feNew, ZMod.natCast_val, ZMod.cast_id]

theorem feAdd_eq (a b : Fe) : feAdd a b = a + b := by
  simp [feAdd, feNew, ZMod.natCast_val, ZMod.cast_id]

theorem feMul_eq (a b : Fe) : feMul a b = a * b := by
  simp [feMul, feNew, ZMod.natCast_val, ZMod.cast_id]

theorem feSub_eq (a b : Fe) : feSub a b = a - b := by
  have hb : b.val ≤ a.val + 101 := by
    have := ZMod.val_lt b
    omega
  simp only [feSub, feNew]
  push_cast [Nat.cast_sub hb]
  simp [ZMod.natCast_val, ZMod.cast_id]
  decide

theorem feNeg_eq (a : Fe) : feNeg a = -a := by
  have : feNew 101 = 0 := by decide
  rw [feNeg, this, feSub_eq, zero_sub]

/-- `inverse` of a nonzero element is a true modular inverse (exhaustive over
the 101 field elements, running the extended Euclid loop). -/
theorem feInverse_mul_self : ∀ a : Fe, a ≠ 0 → a * feInverse a = 1 := by decide

/-- An element of `[0, 101)` sharing a factor with the prime modulus is 0. -/
theorem gcd_ne_one_eq_zero : ∀ a : Fe, Nat.gcd a.val 101 ≠ 1 → a = 0 := by decide

theorem feInverse_zero : feInverse 0 = 0 := by decide

theorem toPoly_nil : toPoly [] = 0 := rfl

theorem toPoly_cons (c : Fe) (cs : List Fe) : toPoly (c :: cs) = C c + X * toPoly cs := rfl

theorem toPoly_append (A B : List Fe) :
    toPoly (A ++ B) = toPoly A + X ^ A.length * toPoly B := by
  induction A with
  | nil => simp [toPoly]
  | cons a A ih => simp only [List.cons_append, toPoly_cons, ih, List.length_cons]; ring

theorem toPoly_single (c : Fe) : toPoly [c] = C c := by simp [toPoly]

theorem toPoly_map_mul (t : Fe) (l : List Fe) :
    toPoly (l.map (fun c => feMul c t)) = C t * toPoly l := by
  induction l with
  | nil => simp [toPoly]
  | cons a l ih =>
    simp only [List.map_cons, toPoly_cons, ih]
    rw [feMul_eq, map_mul]
    ring

theorem subAt_toPoly (s : List Fe) : ∀ D : List Fe, s.length ≤ D.length →
    toPoly (subAt D s) = toPoly D - toPoly s := by
  induction s with
  | nil => intro D _; cases D <;> simp [subAt, toPoly]
  | cons a s ih =>
    intro D hD
    cases D with
    | nil => simp at hD
    | cons dh D' =>
      simp only [List.length_cons, Nat.succ_le_succ_iff] at hD
      simp only [subAt, toPoly_cons, ih D' hD, feSub_eq, map_sub]
      ring

theorem subAt_length (s : List Fe) : ∀ D : List Fe, s.length ≤ D.length →
    (subAt D s).length = D.length := by
  induction s with
  | nil => intro D _; cases D <;> rfl
  | cons a s ih =>
    intro D hD
    cases D with
    | nil => simp at hD
    | cons dh D' =>
      simp only [List.length_cons, Nat.succ_le_succ_iff] at hD
      simp [subAt, ih D' hD]

theorem subAt_getD_ge (s : List Fe) : ∀ (D : List Fe) (p : Nat), s.length ≤ p →
    (subAt D s).getD p 0 = D.getD p 0 := by
  induction s with
  | nil => intro D p _; cases D <;> rfl
  | cons a s ih =>
    intro D p hp
    cases D with
    | nil => simp [subAt]
    | cons dh D' =>
      cases p with
      | zero => simp at hp
      | succ p' =>
        simp only [List.length_cons, Nat.succ_le_succ_iff] at hp
        have hsub : subAt (dh :: D') (a :: s) = feSub dh a :: subAt D' s := rfl
        rw [hsub, List.getD_cons_succ, List.getD_cons_succ]
        exact ih D' p' hp

theorem subAt_getD_lt (s : List Fe) : ∀ (D : List Fe) (p : Nat), p < s.length → p < D.length →
    (subAt D s).getD p 0 = feSub (D.getD p 0) (s.getD p 0) := by
  induction s with
  | nil => intro D p hp _; simp at hp
  | cons a s ih =>
    intro D p hp hD
    cases D with
    | nil => simp at hD
    | cons dh D' =>
      have hsub : subAt (dh :: D') (a :: s) = feSub dh a :: subAt D' s := rfl
      cases p with
      | zero => rw [hsub]; rfl
      | succ p' =>
        simp only [List.length_cons, Nat.succ_lt_succ_iff] at hp hD
        rw [hsub, List.getD_cons_succ, List.getD_cons_succ, List.getD_cons_succ]
        exact ih D' p' hp hD

end Rusty

namespace Rusty

open Polynomial

theorem drop_getD (D : List Fe) (i j : Nat) : (D.drop i).getD j 0 = D.getD (i + j) 0 := by
  simp [List.getD_eq_getElem?_getD, List.getElem?_drop]

theorem map_feMul_getD (l : List Fe) (t : Fe) (n : Nat) (h : n < l.length) :
    (l.map (fun c => feMul c t)).getD n 0 = feMul (l.getD n 0) t := by
  rw [List.getD_eq_getElem?_getD, List.getElem?_map]
  simp [List.getD_eq_getElem?_getD, List.getElem?_eq_getElem h]

theorem applySub_toPoly (D s : List Fe) (i : Nat) (h : i + s.length ≤ D.length) :
    toPoly (applySub D i s) = toPoly D - X ^ i * toPoly s := by
  have hi : i ≤ D.length := le_trans (Nat.le_add_right i s.length) h
  have htl : (D.take i).length = i := by
    rw [List.length_take]
    omega
  have hdl : s.length ≤ (D.drop i).length := by
    rw [List.length_drop]
    omega
  have hD : toPoly D = toPoly (D.take i) + X ^ i * toPoly (D.drop i) := by
    conv_lhs => rw [← List.take_append_drop i D]
    rw [toPoly_append, htl]
  rw [applySub, toPoly_append, htl, subAt_toPoly s _ hdl, hD]
  ring

theorem applySub_length (D s : List Fe) (i : Nat) (h : i + s.length ≤ D.length) :
    (applySub D i s).length = D.length := by
  have hi : i ≤ D.length := le_trans (Nat.le_add_right i s.length) h
  have htl : (D.take i).length = i := by
    rw [List.length_take]; omega
  have hdl : s.length ≤ (D.drop i).length := by
    rw [List.length_drop]; omega
  rw [applySub, List.length_append, htl, subAt_length s _ hdl, List.length_drop]
  omega

theorem applySub_getD_ge (D s : List Fe) (i p : Nat) (hi : i ≤ D.length)
    (h : i + s.length ≤ p) : (applySub D i s).getD p 0 = D.getD p 0 := by
  have htl : (D.take i).length = i := by
    rw [List.length_take]; omega
  rw [applySub, List.getD_append_right _ _ _ _ (by omega : (D.take i).length ≤ p), htl,
    subAt_getD_ge s _ _ (by omega), drop_getD]
  congr 1
  omega

theorem applySub_getD_inner (D s : List Fe) (i p : Nat) (hip : i ≤ p)
    (hps : p < i + s.length) (hpD : p < D.length) :
    (applySub D i s).getD p 0 = feSub (D.getD p 0) (s.getD (p - i) 0) := by
  have htl : (D.take i).length = i := by
    rw [List.length_take]
    omega
  rw [applySub, List.getD_append_right _ _ _ _ (by omega : (D.take i).length ≤ p), htl,
    subAt_getD_lt s _ _ (by omega) (by rw [List.length_drop]; omega), drop_getD]
  congr 2
  omega

theorem divLoop_len_fst (d : List Fe) (inv : Fe) :
    ∀ (i : Nat) (D : List Fe), ((divLoop d inv i D).1).length = i := by
  intro i
  induction i with
  | zero => intro D; rfl
  | succ i ih =>
    intro D
    simp only [divLoop, List.length_append, ih, List.length_cons, List.length_nil]

theorem divLoop_len_snd (d : List Fe) (inv : Fe) (hd : d ≠ []) :
    ∀ (i : Nat) (D : List Fe), i + (d.length - 1) ≤ D.length →
      ((divLoop d inv i D).2).length = D.length := by
  intro i
  induction i with
  | zero => intro D _; rfl
  | succ i ih =>
    intro D h
    have hdl : 1 ≤ d.length := List.length_pos.mpr hd
    have hs : i + (d.map (fun c => feMul c (feMul (D.getD (i + (d.length - 1)) 0) inv))).length
        ≤ D.length := by
      rw [List.length_map]
      omega
    simp only [divLoop]
    rw [ih _ (by rw [applySub_length _ _ _ hs]; omega), applySub_length _ _ _ hs]

theorem divLoop_toPoly (d : List Fe) (inv : Fe) (hd : d ≠ []) :
    ∀ (i : Nat) (D : List Fe), i + (d.length - 1) ≤ D.length →
      toPoly D = toPoly (divLoop d inv i D).1 * toPoly d + toPoly (divLoop d inv i D).2 := by
  intro i
  induction i with
  | zero =>
    intro D _
    simp [divLoop, toPoly]
  | succ i ih =>
    intro D h
    have hdl : 1 ≤ d.length := List.length_pos.mpr hd
    set term := feMul (D.getD (i + (d.length - 1)) 0) inv with hterm
    have hs : i + (d.map (fun c => feMul c term)).length ≤ D.length := by
      rw [List.length_map]
      omega
    have hrec := ih (applySub D i (d.map (fun c => feMul c term)))
      (by rw [applySub_length _ _ _ hs]; omega)
    have hq := divLoop_len_fst d inv i (applySub D i (d.map (fun c => feMul c term)))
    simp only [divLoop, ← hterm]
    rw [toPoly_append, hq, applySub_toPoly _ _ _ hs, toPoly_map_mul] at *
    rw [toPoly_single]
    have := hrec
    -- from: toPoly D - X^i * (C term * toPoly d) = q * d + Dfin
    linear_combination hrec

end Rusty

namespace Rusty

open Polynomial

theorem divLoop_getD_zero (d : List Fe) (inv : Fe) (hd : d ≠ [])
    (hlm : (d.getD (d.length - 1) 0) * inv = 1) :
    ∀ (i : Nat) (D : List Fe), i + (d.length - 1) ≤ D.length →
      (∀ p, i + (d.length - 1) ≤ p → D.getD p 0 = 0) →
      ∀ p, d.length - 1 ≤ p → ((divLoop d inv i D).2).getD p 0 = 0 := by
  intro i
  induction i with
  | zero =>
    intro D _ hz p hp
    exact hz p (by omega)
  | succ i ih =>
    intro D h hz p hp
    have hdl : 1 ≤ d.length := List.length_pos.mpr hd
    set term := feMul (D.getD (i + (d.length - 1)) 0) inv with hterm
    have hs : i + (d.map (fun c => feMul c term)).length ≤ D.length := by
      rw [List.length_map]
      omega
    simp only [divLoop, ← hterm]
    apply ih (applySub D i (d.map (fun c => feMul c term)))
      (by rw [applySub_length _ _ _ hs]; omega) _ p hp
    intro p' hp'
    by_cases hcase : i + (d.length - 1) + 1 ≤ p'
    · by_cases hr : p' < D.length
      · rw [applySub_getD_ge _ _ _ _ (by omega) (by rw [List.length_map]; omega)]
        exact hz p' (by omega)
      · exact List.getD_eq_default _ _ (by rw [applySub_length _ _ _ hs]; omega)
    · -- p' = i + (d.length - 1), the position zeroed by this iteration
      have hpe : p' = i + (d.length - 1) := by omega
      have hpD : p' < D.length := by omega
      rw [applySub_getD_inner _ _ _ _ (by omega) (by rw [List.length_map]; omega) hpD]
      rw [hpe, map_feMul_getD _ _ _ (by omega), Nat.add_sub_cancel_left]
      rw [feSub_eq, feMul_eq, hterm, feMul_eq]
      linear_combination (-(D.getD (i + (d.length - 1)) 0)) * hlm

theorem remTrimRev_toPoly (dd : Nat) : ∀ L : List Fe,
    toPoly (remTrimRev dd L).reverse = toPoly L.reverse := by
  intro L
  induction L with
  | nil => rfl
  | cons c rest ih =>
    by_cases hc : rest.length + 1 > dd ∧ c = 0
    · rw [remTrimRev, if_pos hc, ih, List.reverse_cons, toPoly_append, hc.2]
      simp [toPoly]
    · rw [remTrimRev, if_neg hc]

theorem remTrim_toPoly (dd : Nat) (D : List Fe) : toPoly (remTrim dd D) = toPoly D := by
  have h := remTrimRev_toPoly dd D.reverse
  rw [List.reverse_reverse] at h
  exact h

theorem remTrimRev_length_le (dd : Nat) : ∀ L : List Fe,
    (∀ p, p + dd < L.length → L.getD p 0 = 0) → (remTrimRev dd L).length ≤ dd := by
  intro L
  induction L with
  | nil => intro _; simp [remTrimRev]
  | cons c rest ih =>
    intro hz
    by_cases hlen : rest.length + 1 > dd
    · have hc : c = 0 := by
        have h0 := hz 0 (by simp; omega)
        simpa using h0
      rw [remTrimRev, if_pos ⟨hlen, hc⟩]
      apply ih
      intro q hq
      have hq1 := hz (q + 1) (by simp at hq ⊢; omega)
      simpa [List.getD_cons_succ] using hq1
    · rw [remTrimRev, if_neg (by tauto)]
      simp at hlen ⊢
      omega

theorem remTrim_length_le (dd : Nat) (D : List Fe)
    (hz : ∀ p, dd ≤ p → D.getD p 0 = 0) : (remTrim dd D).length ≤ dd := by
  rw [remTrim, List.length_reverse]
  apply remTrimRev_length_le
  intro p hp
  rw [List.length_reverse] at hp
  rw [List.getD_eq_getElem?_getD, List.getElem?_reverse (by omega), ← List.getD_eq_getElem?_getD]
  exact hz _ (by omega)

end Rusty

namespace Rusty

open Polynomial

/-- C4 (amended): for every dividend `p` and every divisor `d` that is nonempty
with a nonzero leading (last) coefficient — the canonical spec representation of a "nonzero
polynomial with no trailing zeros" — `divide` succeeds with
`p = q·d + r` and `length r < length d` (hence `degree r < degree d`), the
remainder of a constant divisor is the (empty) zero polynomial, and dividing by
the empty zero polynomial fails. -/
theorem C4_divide_quot_rem (p d : List Fe) (hd : d ≠ [])
    (hlead : d.getD (d.length - 1) 0 ≠ 0) :
    (∃ q r, divideL p d = some (q, r) ∧
        toPoly p = toPoly q * toPoly d + toPoly r ∧
        r.length < d.length ∧
        (d.length = 1 → r = [])) ∧
    divideL p [] = none := by
  refine ⟨?_, rfl⟩
  have h0 : ¬ (d.isEmpty = true) := by simp [List.isEmpty_iff, hd]
  by_cases h1 : d.length = 1
  · obtain ⟨c, rfl⟩ : ∃ c, d = [c] := by
      cases d with
      | nil => exact absurd rfl hd
      | cons c tl =>
        cases tl with
        | nil => exact ⟨c, rfl⟩
        | cons c2 tl2 => simp at h1
    have hc : c ≠ 0 := by simpa using hlead
    have hci : c * feInverse c = 1 := feInverse_mul_self c hc
    refine ⟨p.map (fun x => feMul x (feInverse c)), [], ?_, ?_, by simp, fun _ => rfl⟩
    · simp only [divideL, if_neg h0, List.length_cons, List.length_nil, if_pos rfl,
        List.getD_cons_zero]
      simp
    · rw [toPoly_map_mul, toPoly_single, toPoly_nil]
      calc toPoly p = C (c * feInverse c) * toPoly p := by rw [hci]; simp
        _ = C (feInverse c) * toPoly p * C c + 0 := by rw [map_mul]; ring
  · have hdl : 2 ≤ d.length := by
      have : 1 ≤ d.length := List.length_pos.mpr hd
      omega
    by_cases h2 : p.length ≤ d.length - 1
    · refine ⟨[], p, ?_, by simp [toPoly_nil], by omega, fun hh => absurd hh h1⟩
      simp only [divideL, if_neg h0, if_neg h1, if_pos h2]
    · set inv := feInverse (d.getD (d.length - 1) 0) with hinvdef
      have hlm : (d.getD (d.length - 1) 0) * inv = 1 := feInverse_mul_self _ hlead
      have hle : (p.length - (d.length - 1)) + (d.length - 1) ≤ p.length := by omega
      refine ⟨(divLoop d inv (p.length - (d.length - 1)) p).1,
        remTrim (d.length - 1) (divLoop d inv (p.length - (d.length - 1)) p).2,
        ?_, ?_, ?_, fun hh => absurd hh h1⟩
      · simp only [divideL, if_neg h0, if_neg h1, if_neg h2, ← hinvdef]
      · rw [remTrim_toPoly]
        exact divLoop_toPoly d inv hd _ p hle
      · have hzfin := divLoop_getD_zero d inv hd hlm (p.length - (d.length - 1)) p hle
          (fun p' hp' => List.getD_eq_default _ _ (by omega))
        have hlen := remTrim_length_le (d.length - 1) _ (fun p' hp' => hzfin p' hp')
        omega

/-- C4 counterexample to the claim as stated: dividing by the length-one zero
polynomial `[0]` (a representation of the zero polynomial) does NOT fail — the
scalar path silently uses the inverse-of-zero sentinel; and for the nonzero but
untrimmed divisor `[1, 0]` (the constant 1 with a trailing zero) the returned
remainder `x²` has degree 2, not `< degree(d) = 0`. -/
theorem C4_counterexample :
    divideL [feNew 1] [feNew 0] = some ([feNew 0], []) ∧
    divideL [feNew 0, feNew 0, feNew 1] [feNew 1, feNew 0] =
      some ([feNew 0, feNew 0], [feNew 0, feNew 0, feNew 1]) ∧
    degreeL [feNew 0, feNew 0, feNew 1] = some 2 ∧
    degreeL [feNew 1, feNew 0] = some 0 := by decide

/-- C4 witness: the amended theorem at `p = 1 + 2x + 3x²`, `d = 2 + x`. -/
theorem C4_witness :
    (([feNew 2, feNew 1] : List Fe) ≠ [] ∧
      ([feNew 2, feNew 1] : List Fe).getD (([feNew 2, feNew 1] : List Fe).length - 1) 0 ≠ 0) ∧
    ((∃ q r, divideL [feNew 1, feNew 2, feNew 3] [feNew 2, feNew 1] = some (q, r) ∧
        toPoly [feNew 1, feNew 2, feNew 3] = toPoly q * toPoly [feNew 2, feNew 1] + toPoly r ∧
        r.length < ([feNew 2, feNew 1] : List Fe).length ∧
        (([feNew 2, feNew 1] : List Fe).length = 1 → r = [])) ∧
      divideL [feNew 1, feNew 2, feNew 3] [] = none) :=
  ⟨⟨by decide, by decide⟩,
    C4_divide_quot_rem [feNew 1, feNew 2, feNew 3] [feNew 2, feNew 1] (by decide) (by decide)⟩

end Rusty

namespace Rusty

theorem msmGo_none_iff (cA : Fe) : ∀ (cs : List Fe) (ps : List Pt) (acc : Pt),
    msmGo cA cs ps acc = none ↔ ps.length < cs.length := by
  intro cs
  induction cs with
  | nil => intro ps acc; simp [msmGo]
  | cons c cs ih =>
    intro ps acc
    cases ps with
    | nil => simp [msmGo]
    | cons q ps' =>
      simp only [msmGo, ih, List.length_cons]
      omega

/-- C1: the quotient computed by `KZG::prove` does not satisfy
`q(x)·(x − z) + y = poly(x)`.  At `poly = x²`, `z = 1` (so `y = 1`), the loop
returns `q = [100, 1] = x − 1` — it divides by `x + z` instead of `x − z`
(the update subtracts `q_i·z` where synthetic division by `x − z` must add it).
`q·(x − 1) + 1 = x² − 2x + 2 ≠ x²`, while the correct quotient of
`(poly − y) ÷ (x − z)` is `[1, 1] = x + 1` (last conjunct, via `divide`); the
returned proof is the commitment of the wrong quotient (here the point at
infinity, since `[100]G + [tau]G = [15]G + [2]G = [17]G = ∞` for `tau = 2`). -/
theorem C1_prove_quotient_bug :
    proveL (kzgNew 2 2) [feNew 0, feNew 0, feNew 1] (feNew 1) = some (feNew 1, inftyP) ∧
    proveQ (feNew 1) [feNew 0, feNew 0, feNew 1] = [feNew 100, feNew 1] ∧
    polyAddL (polyMulL (proveQ (feNew 1) [feNew 0, feNew 0, feNew 1]) [feNew 100, feNew 1])
        [feNew 1] ≠ [feNew 0, feNew 0, feNew 1] ∧
    divideL [feNew 100, feNew 0, feNew 1] [feNew 100, feNew 1] =
      some ([feNew 1, feNew 1], [feNew 0]) := by decide

/-- C2: `commit` performs no degree check: it returns the MSM exactly when the
coefficient vector fits inside `setup_g1` (and is nonempty), and otherwise hits
the panics modelled by `none` — the out-of-range `setup_g1[i]` indexing (or the
`len - 1` underflow on an empty vector), never an explicit `DegreeExceeded`
failure.  Concretely: with `max_degree = 2`, committing to the degree-3 `x³`
panics, while `1 + 2x` commits to its MSM. -/
theorem C2_commit_unchecked_oob :
    (∀ (k : KZGSt) (coeffs : List Fe),
        commitL k coeffs = none ↔ coeffs = [] ∨ k.setup_g1.length < coeffs.length) ∧
    commitL (kzgNew 2 2) [feNew 0, feNew 0, feNew 0, feNew 1] = none ∧
    commitL (kzgNew 2 2) [feNew 1, feNew 2] = some ⟨feNew 12, feNew 32, false⟩ := by
  refine ⟨?_, by decide, by decide⟩
  intro k coeffs
  rw [commitL]
  by_cases hc : coeffs.isEmpty = true
  · rw [if_pos hc]
    simp only [List.isEmpty_iff] at hc
    simp [hc]
  · rw [if_neg hc, msmGo_none_iff]
    simp only [List.isEmpty_iff] at hc
    simp [hc]

/-- C3 counterexample: `verify` returns `true` on an input whose two
placeholder-pairing values differ (left `36`, right `29`), so its boolean
result is not the comparison of the two pairing values. -/
theorem C3_counterexample :
    verify (kzgNew 2 2) ⟨feNew 1, feNew 2, false⟩ (feNew 0) (feNew 0) inftyP = true ∧
    verifyLeft (kzgNew 2 2) ⟨feNew 1, feNew 2, false⟩ (feNew 0) = feNew 36 ∧
    verifyRight (kzgNew 2 2) (feNew 0) inftyP = feNew 29 ∧
    (feNew 36 : Fe) ≠ feNew 29 := by decide

/-- C3 (amended): `verify` computes the two placeholder-pairing values but
ignores them and returns the literal `true` for every state and every
argument (source line 132). -/
theorem C3_verify_always_true (k : KZGSt) (c : Pt) (z y : Fe) (pf : Pt) :
    verify k c z y pf = true := rfl

/-- The `prove` call of the round-trip test only touches `setup_g1[0] = G1`:
its quotient has a single coefficient, so the MSM stops after the first SRS
entry, whatever the rest of the SRS is. -/
theorem proveL_deg1_head (tail : List Pt) (sg2 : List PtExt) :
    proveL ⟨curveNew, curveNew.g1 :: tail, sg2⟩ [feNew 1, feNew 2] (feNew 3) =
      some (feNew 7, ⟨feNew 68, feNew 74, false⟩) := by
  have hms : msmGo curveNew.a (proveQ (feNew 3) [feNew 1, feNew 2]) (curveNew.g1 :: tail)
      inftyP = some (addP curveNew.a inftyP (scalarMulP curveNew.a curveNew.g1 (feNew 2))) :=
    rfl
  have hpt : addP curveNew.a inftyP (scalarMulP curveNew.a curveNew.g1 (feNew 2)) =
      ⟨feNew 68, feNew 74, false⟩ := by decide
  have hy : evalL [feNew 1, feNew 2] (feNew 3) = feNew 7 := by decide
  have hq : (proveQ (feNew 3) [feNew 1, feNew 2]).isEmpty = false := by decide
  simp only [proveL, List.isEmpty_cons, Bool.false_eq_true, if_false, hms, hpt, hy, hq,
    reduceIte]
  rfl

/-- C5: the KZG round trip at degree 1.  For every secret `tau ∈ [1, 101)`,
with `max_degree = 2`, `poly = 1 + 2x` and `z = 3`: `prove` returns `y = 7` and
`proof = [2]·G1 = (68, 74)`, and `verify` on the commitment accepts. -/
theorem C5_kzg_round_trip (tau : Nat) (h1 : 1 ≤ tau) (h2 : tau < 101) :
    proveL (kzgNew 2 tau) [feNew 1, feNew 2] (feNew 3) =
      some (feNew 7, ⟨feNew 68, feNew 74, false⟩) ∧
    ∀ c : Pt, commitL (kzgNew 2 tau) [feNew 1, feNew 2] = some c →
      verify (kzgNew 2 tau) c (feNew 3) (feNew 7) ⟨feNew 68, feNew 74, false⟩ = true := by
  exact ⟨proveL_deg1_head _ _, fun c _ => rfl⟩

/-- C5 witness at `tau = 2` (where the commitment is `(12, 32)`). -/
theorem C5_witness :
    (1 ≤ 2 ∧ 2 < 101) ∧
    proveL (kzgNew 2 2) [feNew 1, feNew 2] (feNew 3) =
      some (feNew 7, ⟨feNew 68, feNew 74, false⟩) ∧
    verify (kzgNew 2 2) ⟨feNew 12, feNew 32, false⟩ (feNew 3) (feNew 7)
      ⟨feNew 68, feNew 74, false⟩ = true :=
  ⟨⟨by decide, by decide⟩, (C5_kzg_round_trip 2 (by decide) (by decide)).1,
    (C5_kzg_round_trip 2 (by decide) (by decide)).2 ⟨feNew 12, feNew 32, false⟩ (by decide)⟩

/-- C6: when `gcd(a.value, 101) = 1`, `inverse` (extended Euclid) is a true
modular inverse: `a · a⁻¹ = 1`; otherwise (only `a = 0` here, as 101 is prime)
`inverse` returns the zero element as a sentinel. -/
theorem C6_inverse_spec (a : Fe) :
    (Nat.gcd a.val 101 = 1 → feMul a (feInverse a) = feNew 1) ∧
    (Nat.gcd a.val 101 ≠ 1 → feInverse a = feNew 0) := by
  revert a
  decide

/-- C6 witness at `a = 3` (invertible) and `a = 0` (sentinel). -/
theorem C6_witness :
    (Nat.gcd (feNew 3 : Fe).val 101 = 1 ∧ feMul (feNew 3) (feInverse (feNew 3)) = feNew 1) ∧
    (Nat.gcd (feNew 0 : Fe).val 101 ≠ 1 ∧ feInverse (feNew 0) = feNew 0) :=
  ⟨⟨by decide, (C6_inverse_spec (feNew 3)).1 (by decide)⟩,
   ⟨by decide, (C6_inverse_spec (feNew 0)).2 (by decide)⟩⟩

/-- C7 counterexample: `(48, 0)` lies on `y² = x³ + 3` over `F_101` and is its
own negation (`−0 = 0`), yet `my_plonk`-style `add` returns the affine point
`(5, 0)` instead of the point at infinity: the equal-`y` pair falls into the
doubling branch, whose slope divides by `2y = 0` through the zero sentinel. -/
theorem C7_counterexample :
    feMul (feNew 0) (feNew 0) = feAdd (feMul (feMul (feNew 48) (feNew 48)) (feNew 48)) (feNew 3) ∧
    feNeg (feNew 0) = feNew 0 ∧
    addP (feNew 0) ⟨feNew 48, feNew 0, false⟩ ⟨feNew 48, feNeg (feNew 0), false⟩ =
      ⟨feNew 5, feNew 0, false⟩ ∧
    (⟨feNew 5, feNew 0, false⟩ : Pt) ≠ inftyP := by decide

/-- C7 (amended): the point at infinity is absorbed by either operand (for the
`my_plonk` struct representation, `∞ + P = P` holds for every `P` and
`P + ∞ = P` for every affine `P`); `P + (−P) = ∞` holds in `my_plonk` whenever
`y ≠ 0`, and in the tagged-variant `my_math` addition for every `y` including
`y = 0` (its `P = −Q` check precedes the doubling branch). -/
theorem C7_identity_and_negation :
    (∀ p : Pt, addP (feNew 0) inftyP p = p) ∧
    (∀ p : Pt, p.is_infinity = false → addP (feNew 0) p inftyP = p) ∧
    (∀ x y : Fe, y ≠ 0 → addP (feNew 0) ⟨x, y, false⟩ ⟨x, feNeg y, false⟩ = inftyP) ∧
    (∀ p : PtM, addM p .infinity = p ∧ addM .infinity p = p) ∧
    (∀ x y : Fe, addM (.affine x y) (.affine x (feNeg y)) = .infinity) := by
  refine ⟨fun p => rfl, ?_, ?_, ?_, ?_⟩
  · intro p h
    cases p with
    | mk x y inf =>
      simp only at h
      subst h
      rfl
  · intro x y hy
    have hne : y ≠ feNeg y := by
      rw [feNeg_eq]
      intro hcon
      exact hy ((by decide : ∀ z : Fe, z = -z → z = 0) y hcon)
    simp [addP, hne]
  · intro p
    cases p <;> exact ⟨rfl, rfl⟩
  · intro x y
    have h1 : y = feNeg (feNeg y) := by rw [feNeg_eq, feNeg_eq, neg_neg]
    simp only [addM]
    split
    · rfl
    · next hcond =>
      refine absurd ⟨?_, h1⟩ hcond
      trivial

/-- C7 witness: the amended group-law facts at `G = (1, 2)` and `(48, 0)`. -/
theorem C7_witness :
    addP (feNew 0) inftyP ⟨feNew 1, feNew 2, false⟩ = ⟨feNew 1, feNew 2, false⟩ ∧
    addP (feNew 0) ⟨feNew 1, feNew 2, false⟩ inftyP = ⟨feNew 1, feNew 2, false⟩ ∧
    addP (feNew 0) ⟨feNew 1, feNew 2, false⟩ ⟨feNew 1, feNeg (feNew 2), false⟩ = inftyP ∧
    addM (.affine (feNew 1) (feNew 2)) .infinity = .affine (feNew 1) (feNew 2) ∧
    addM (.affine (feNew 48) (feNew 0)) (.affine (feNew 48) (feNeg (feNew 0))) = .infinity :=
  ⟨C7_identity_and_negation.1 ⟨feNew 1, feNew 2, false⟩,
   C7_identity_and_negation.2.1 ⟨feNew 1, feNew 2, false⟩ rfl,
   C7_identity_and_negation.2.2.1 (feNew 1) (feNew 2) (by decide),
   (C7_identity_and_negation.2.2.2.1 (.affine (feNew 1) (feNew 2))).1,
   C7_identity_and_negation.2.2.2.2 (feNew 48) (feNew 0)⟩

/-- C8 counterexample: two points sharing the x-coordinate 0 do NOT make
`lagrange_interpolate` fail — the zero denominator goes through the
inverse-of-zero sentinel, the affected basis terms vanish, and the call
silently returns the polynomial `[0, 0]`. -/
theorem C8_counterexample :
    lagrangeL [(feNew 0, feNew 1), (feNew 0, feNew 2)] = some [feNew 0, feNew 0] := by decide

/-- C8 (amended): `lagrange_interpolate` fails only on an empty point list (the
`assert!`); duplicate x-coordinates are not detected and produce a silent
(garbage) polynomial through the zero-inverse sentinel. -/
theorem C8_lagrange_none_iff (pts : List (Fe × Fe)) :
    lagrangeL pts = none ↔ pts = [] := by
  cases pts with
  | nil => simp [lagrangeL]
  | cons a l => simp [lagrangeL]

/-- C9 counterexample: the state returned by Setup (here `degree = 2`,
`tau = 5`) is literally a record of `curve`, `setup_g1` and `setup_g2` — there
is no `tau` component beyond the SRS points (the `KZG` struct, source lines
16–21, has exactly these three fields). -/
theorem C9_counterexample :
    kzgNew 2 5 = ⟨curveNew,
      [⟨feNew 1, feNew 2, false⟩, ⟨feNew 12, feNew 32, false⟩, ⟨feNew 18, feNew 49, false⟩],
      [⟨⟨feNew 36, feNew 0⟩, ⟨feNew 0, feNew 31⟩, false⟩,
       ⟨⟨feNew 22, feNew 0⟩, ⟨feNew 0, feNew 70⟩, false⟩]⟩ := by decide

/-- C9 (amended): the Ready state is fully determined by `curve`, `setup_g1`
and `setup_g2` — it carries no further component (in particular no retained
`tau` field). -/
theorem C9_state_is_srs_only (s t : KZGSt) (hc : s.curve = t.curve)
    (h1 : s.setup_g1 = t.setup_g1) (h2 : s.setup_g2 = t.setup_g2) : s = t := by
  cases s
  cases t
  cases hc
  cases h1
  cases h2
  rfl

/-- C9 witness: the amended extensionality applied to the `tau = 3` setup. -/
theorem C9_witness : kzgNew 1 3 = kzgNew 1 3 :=
  C9_state_is_srs_only (kzgNew 1 3) (kzgNew 1 3) rfl rfl rfl

/-- C10: `FieldElement::divide` is total; dividing by any non-invertible
element (only 0 modulo the prime 101) silently returns the zero element, since
the inverse sentinel is 0 and `a · 0 = 0` — no `DivisionByZero` or
`NonInvertible` failure is raised. -/
theorem C10_divide_by_noninvertible (a b : Fe) (h : Nat.gcd b.val 101 ≠ 1) :
    feDivide a b = feNew 0 := by
  have hb : b = 0 := gcd_ne_one_eq_zero b h
  subst hb
  rw [feDivide, feInverse_zero, feMul_eq, mul_zero]
  simp [feNew]

/-- C10 witness at `a = 5`, `b = 0`. -/
theorem C10_witness :
    Nat.gcd (feNew 0 : Fe).val 101 ≠ 1 ∧ feDivide (feNew 5) (feNew 0) = feNew 0 :=
  ⟨by decide, C10_divide_by_noninvertible (feNew 5) (feNew 0) (by decide)⟩

end Rusty
